import Mathlib

/-!
# Verification of `multilock` (mystor/multilock, src/lib.rs)

A shallow embedding of the crate's data model and operations, and proofs of
the specification's claims about them.

Modelling conventions:

* A raw mutex (`&'a R` in the source) is identified by its memory address,
  modelled as a `Nat`.  Two references with the same address denote the same
  mutex.
* The lock state of the world is `LockSt : Nat → Bool` (`true` = locked),
  mirroring `RawMutex::lock` / `RawMutex::unlock` / `Mutex::is_locked`.
* `RawMutex::lock` blocks forever when the mutex is already held (the locks
  in scope are non-reentrant).  In the single-thread semantics used for one
  session this is modelled by `Option`: `none` means the call never returns
  (self-deadlock).  Multi-thread behaviour is modelled separately by a
  two-thread interleaving step relation (`Sys`/`Step` below).
* The invariant session lifetime `Id<'id>` (lib.rs line 46) is a type-level
  brand with no runtime content.  The embedding reifies it as a `Nat` drawn
  from a counter threaded through `multilock` invocations; the static typing
  rule "a `Token<'id,..>` may only be paired with a `Locker<'id,..>` of the
  same `'id`" is reified as a brand-equality guard on the accessors.
* The protected data of the mutexes is a separate `Store V : Nat → V`;
  `Token::get` reads it and `Token::get_mut` (modelled as a write through the
  returned mutable reference) updates it.  Neither accessor touches `LockSt`,
  exactly as in the source, where they only dereference `Mutex::data_ptr`.
-/

namespace Multilock

/-- Lock state of the world: for each raw-mutex address, whether it is held. -/
abbrev LockSt : Type := Nat → Bool

/-- The state in which every mutex is unlocked. -/
def initSt : LockSt := fun _ => false

/-- Protected data of the world's mutexes, one value per address. -/
abbrev Store (V : Type) : Type := Nat → V

/-- `RawMutex::lock` in single-thread semantics: if the mutex is already held
the (non-reentrant) call blocks forever, modelled as `none`; otherwise it
marks the mutex held. -/
def rawLock (s : LockSt) (a : Nat) : Option LockSt :=
  if s a then none else some (fun x => if x = a then true else s x)

/-- `RawMutex::unlock`: marks the mutex not held. -/
def rawUnlock (s : LockSt) (a : Nat) : LockSt :=
  fun x => if x = a then false else s x

/-- `Builder<'id, 'a, R>`: the session brand and the registered raw-mutex
addresses, in registration order (`locks: SmallVec<[&'a R; 4]>`). -/
structure Builder where
  brand : Nat
  locks : List Nat
deriving DecidableEq

/-- `Token<'id, 'a, R, T>`: the session brand and the address of the one
registered mutex it references. -/
structure Token where
  brand : Nat
  addr : Nat
deriving DecidableEq

/-- `Locker<'id, 'a, R>`: the session brand and the held addresses, in the
order `finish` acquired them. -/
structure Locker where
  brand : Nat
  locks : List Nat
deriving DecidableEq

/-- `Builder::add`: appends the mutex's raw address to the collection and
returns a `Token` carrying this session's brand.  The lock state is passed
through untouched: `add` performs no locking. -/
def Builder.add (b : Builder) (addr : Nat) (s : LockSt) :
    Builder × Token × LockSt :=
  ({ b with locks := b.locks ++ [addr] },
   { brand := b.brand, addr := addr },
   s)

/-- The sequence of underlying `lock()` calls `Builder::finish` issues: the
registered addresses sorted ascending
(`locks.sort_unstable_by_key(|m| *m as *const R)`).  The sort key of an entry
is the entry itself, so entries with equal keys are equal and the unstable
sort's result is the unique `(· ≤ ·)`-sorted permutation of the registration
list; `List.insertionSort` computes exactly that list. -/
def Builder.acquireOrder (b : Builder) : List Nat :=
  List.insertionSort (· ≤ ·) b.locks

/-- The loop `for raw in &locks { raw.lock(); }`: acquires each address in
order; `none` if some acquisition blocks forever. -/
def lockAll (s : LockSt) : List Nat → Option LockSt
  | [] => some s
  | a :: rest =>
    match rawLock s a with
    | none => none
    | some s1 => lockAll s1 rest

/-- `Builder::finish`: sorts the registered addresses and acquires each in
ascending order, producing a `Locker` holding the sorted collection and the
session brand; `none` if the loop blocks forever (self-deadlock). -/
def Builder.finish (b : Builder) (s : LockSt) : Option (Locker × LockSt) :=
  match lockAll s b.acquireOrder with
  | none => none
  | some s1 => some ({ brand := b.brand, locks := b.acquireOrder }, s1)

/-- The `Locker` produced by a successful `finish` (defaulting to the value
`finish` would build when `finish` blocks, so statements can project it
totally). -/
def Builder.finishLk (b : Builder) (s : LockSt) : Locker :=
  ((b.finish s).map Prod.fst).getD { brand := b.brand, locks := b.acquireOrder }

/-- The lock state after a successful `finish` (defaulting to the input state
when `finish` blocks). -/
def Builder.finishSt (b : Builder) (s : LockSt) : LockSt :=
  ((b.finish s).map Prod.snd).getD s

/-- The loop in `Locker::drop`: `for raw in &self.locks { raw.unlock(); }`. -/
def unlockAll (s : LockSt) : List Nat → LockSt
  | [] => s
  | a :: rest => unlockAll (rawUnlock s a) rest

/-- `Locker::drop`: unlocks every held address. -/
def Locker.drop (lk : Locker) (s : LockSt) : LockSt :=
  unlockAll s lk.locks

/-- The sequence of underlying `unlock()` calls `Locker::drop` issues. -/
def Locker.dropOrder (lk : Locker) : List Nat :=
  lk.locks

/-- The acquisition loop of `Builder::finish` when an underlying acquisition
can fail (e.g. a poisoned lock whose `lock()` panics).  `lock_api`'s
`RawMutex::lock` is infallible, so the source has no explicit failure path;
this models the claim's scenario on the source's loop
`for raw in &locks { raw.lock(); }`: a failing acquisition aborts the loop
and the failure propagates (unwinds) out of `finish` before the `Locker` is
constructed, so no destructor unlocks the already-acquired mutexes — the
`SmallVec` of plain references is dropped without releasing anything.  The
result is the lock state at the moment the loop stops, together with the
address whose acquisition failed (`none` when every acquisition succeeds). -/
def lockAllF (poisoned : Nat → Bool) : LockSt → List Nat → LockSt × Option Nat
  | s, [] => (s, none)
  | s, a :: rest =>
    if poisoned a then (s, some a)
    else lockAllF poisoned (fun x => if x = a then true else s x) rest

/-- `Builder::finish` under the fallible-acquisition model of `lockAllF`. -/
def Builder.finishF (b : Builder) (poisoned : Nat → Bool) (s : LockSt) :
    LockSt × Option Nat :=
  lockAllF poisoned s b.acquireOrder

/-- `Token::get`, with the `'id` brand discipline reified as a runtime guard:
pairing a `Token` with a `Locker` of a different session brand does not
type-check in the source, modelled as `none`.  On a matching brand it returns
the protected value (`&*self.mutex.data_ptr()`); it touches no lock state. -/
def Token.get {V : Type} (t : Token) (lk : Locker) (store : Store V) :
    Option V :=
  if t.brand = lk.brand then some (store t.addr) else none

/-- Writing the value `v` through the mutable reference returned by
`Token::get_mut`, with the same reified brand guard: on a matching brand the
store is updated at the token's address; a brand mismatch does not
type-check, modelled as `none`.  It touches no lock state. -/
def Token.write {V : Type} (t : Token) (lk : Locker) (v : V)
    (store : Store V) : Option (Store V) :=
  if t.brand = lk.brand then
    some (fun a => if a = t.addr then v else store a)
  else none

/-- The store after writing through `Token::get_mut` (defaulting to the
unchanged store on the brand mismatch that the source rejects statically). -/
def Token.writeD {V : Type} (t : Token) (lk : Locker) (v : V)
    (store : Store V) : Store V :=
  (t.write lk v store).getD store

/-- The predicate of the `debug_assert!(self.mutex.is_locked())` at the top
of `Token::get` and `Token::get_mut`. -/
def Token.assertLocked (t : Token) (s : LockSt) : Bool :=
  s t.addr

/-- The `Builder` the entry point passes to its callback: empty collection,
fresh brand.  `n` is the brand counter reifying the `'id` lifetime. -/
def sessionBuilder (n : Nat) : Builder :=
  { brand := n, locks := [] }

/-- `multilock`: constructs an empty `Builder` carrying a fresh session brand,
invokes the callback on it, and returns the callback's result unchanged
together with the advanced brand counter. -/
def multilock {α : Type} (n : Nat) (func : Builder → α) : α × Nat :=
  (func (sessionBuilder n), n + 1)

/-! ## Two-thread interleaving model

For the deadlock-freedom claim, two threads each run one session whose
`finish` has been reached: each still has to acquire its builder's
`acquireOrder`, then drops its `Locker`.  A mutex is held iff it is in some
thread's `held` list; `RawMutex::lock` can proceed only when the requested
address is held by no thread (the locks are non-reentrant, so this includes
the requester itself) and otherwise blocks, i.e. the thread has no enabled
step until the address is released. -/

/-- One thread running a session: the addresses it has acquired so far (in
acquisition order), the addresses its `finish` loop still has to acquire,
and whether the session has completed (dropped its `Locker`). -/
structure Thread where
  held : List Nat
  todo : List Nat
  finished : Bool
deriving DecidableEq

/-- Two threads sharing the world of mutexes. -/
structure Sys where
  t1 : Thread
  t2 : Thread
deriving DecidableEq

/-- Interleaving semantics: a thread acquires the next address of its
`finish` loop when no thread holds it, and when its loop is done it drops
its `Locker`, releasing everything it held, and completes. -/
inductive Step : Sys → Sys → Prop where
  | acq1 (s : Sys) (a : Nat) (rest : List Nat) :
      s.t1.finished = false → s.t1.todo = a :: rest →
      a ∉ s.t1.held → a ∉ s.t2.held →
      Step s ⟨⟨s.t1.held ++ [a], rest, false⟩, s.t2⟩
  | acq2 (s : Sys) (a : Nat) (rest : List Nat) :
      s.t2.finished = false → s.t2.todo = a :: rest →
      a ∉ s.t1.held → a ∉ s.t2.held →
      Step s ⟨s.t1, ⟨s.t2.held ++ [a], rest, false⟩⟩
  | rel1 (s : Sys) :
      s.t1.finished = false → s.t1.todo = [] →
      Step s ⟨⟨[], [], true⟩, s.t2⟩
  | rel2 (s : Sys) :
      s.t2.finished = false → s.t2.todo = [] →
      Step s ⟨s.t1, ⟨[], [], true⟩⟩

/-- Both sessions have completed. -/
def BothDone (s : Sys) : Prop :=
  s.t1.finished = true ∧ s.t2.finished = true

/-- Per-thread invariant: the thread acquires in ascending address order
(its held prefix followed by its remaining suffix is strictly sorted), and a
completed thread holds nothing. -/
def ThreadInv (t : Thread) : Prop :=
  (t.held ++ t.todo).Sorted (· < ·) ∧ (t.finished = true → t.held = [])

/-- System invariant: both per-thread invariants, and no mutex is held by
both threads at once. -/
def Inv (s : Sys) : Prop :=
  ThreadInv s.t1 ∧ ThreadInv s.t2 ∧ ∀ a, a ∈ s.t1.held → a ∉ s.t2.held

/-- Termination measure: pending acquisitions plus pending completions. -/
def meas (s : Sys) : Nat :=
  s.t1.todo.length + s.t2.todo.length +
    (if s.t1.finished then 0 else 1) + (if s.t2.finished then 0 else 1)

/-- The system at the moment both threads' sessions have registered their
resources and entered `finish`: each thread will acquire its builder's
sorted acquisition sequence. -/
def initSys (b1 b2 : Builder) : Sys :=
  ⟨⟨[], b1.acquireOrder, false⟩, ⟨[], b2.acquireOrder, false⟩⟩

/-! ## Basic lemmas about `lockAll` and `unlockAll` -/

theorem rawLock_eq_some {s : LockSt} {a : Nat} {s1 : LockSt}
    (h : rawLock s a = some s1) :
    s a = false ∧ s1 = fun x => if x = a then true else s x := by
  unfold rawLock at h
  by_cases hsa : s a = true
  · rw [if_pos hsa] at h; cases h
  · rw [if_neg hsa] at h
    injection h with h2
    exact ⟨Bool.not_eq_true (s a) |>.mp hsa, h2.symm⟩

theorem lockAll_monotone {l : List Nat} :
    ∀ {s s1 : LockSt}, lockAll s l = some s1 →
      ∀ x, s x = true → s1 x = true := by
  induction l with
  | nil =>
    intro s s1 h x hx
    unfold lockAll at h
    cases h
    exact hx
  | cons a rest ih =>
    intro s s1 h x hx
    unfold lockAll at h
    cases hr : rawLock s a with
    | none => rw [hr] at h; cases h
    | some s2 =>
      rw [hr] at h
      obtain ⟨-, hs2⟩ := rawLock_eq_some hr
      refine ih h x ?_
      rw [hs2]
      by_cases hxa : x = a <;> simp [hxa, hx]

theorem lockAll_locks_mem {l : List Nat} :
    ∀ {s s1 : LockSt}, lockAll s l = some s1 →
      ∀ a ∈ l, s a = false ∧ s1 a = true := by
  induction l with
  | nil => intro s s1 _ a ha; cases ha
  | cons b rest ih =>
    intro s s1 h a ha
    unfold lockAll at h
    cases hr : rawLock s b with
    | none => rw [hr] at h; cases h
    | some s2 =>
      rw [hr] at h
      obtain ⟨hsb, hs2⟩ := rawLock_eq_some hr
      rcases List.mem_cons.mp ha with hab | harest
      · subst hab
        refine ⟨hsb, lockAll_monotone h a ?_⟩
        rw [hs2]; simp
      · obtain ⟨h2, h3⟩ := ih h a harest
        rw [hs2] at h2
        by_cases hba : a = b
        · subst hba; exact ⟨hsb, h3⟩
        · simp [hba] at h2
          exact ⟨h2, h3⟩

theorem lockAll_nodup {l : List Nat} :
    ∀ {s s1 : LockSt}, lockAll s l = some s1 → l.Nodup := by
  induction l with
  | nil => intro s s1 _; exact List.nodup_nil
  | cons a rest ih =>
    intro s s1 h
    unfold lockAll at h
    cases hr : rawLock s a with
    | none => rw [hr] at h; cases h
    | some s2 =>
      rw [hr] at h
      obtain ⟨-, hs2⟩ := rawLock_eq_some hr
      refine List.nodup_cons.mpr ⟨?_, ih h⟩
      intro hmem
      have := (lockAll_locks_mem h a hmem).1
      rw [hs2] at this
      simp at this

theorem lockAll_outside {l : List Nat} :
    ∀ {s s1 : LockSt}, lockAll s l = some s1 →
      ∀ x, x ∉ l → s1 x = s x := by
  induction l with
  | nil =>
    intro s s1 h x _
    unfold lockAll at h
    cases h; rfl
  | cons a rest ih =>
    intro s s1 h x hx
    unfold lockAll at h
    cases hr : rawLock s a with
    | none => rw [hr] at h; cases h
    | some s2 =>
      rw [hr] at h
      obtain ⟨-, hs2⟩ := rawLock_eq_some hr
      have hxa : x ≠ a := fun hc => hx (hc ▸ List.mem_cons_self a rest)
      have hxrest : x ∉ rest := fun hc => hx (List.mem_cons_of_mem a hc)
      rw [ih h x hxrest, hs2]
      simp [hxa]

theorem unlockAll_outside {l : List Nat} :
    ∀ {s : LockSt} (x : Nat), x ∉ l → unlockAll s l x = s x := by
  induction l with
  | nil => intro s x _; rfl
  | cons a rest ih =>
    intro s x hx
    have hxa : x ≠ a := fun hc => hx (hc ▸ List.mem_cons_self a rest)
    have hxrest : x ∉ rest := fun hc => hx (List.mem_cons_of_mem a hc)
    unfold unlockAll
    rw [ih x hxrest]
    unfold rawUnlock
    simp [hxa]

theorem unlockAll_mem {l : List Nat} :
    ∀ {s : LockSt} (a : Nat), a ∈ l → unlockAll s l a = false := by
  induction l with
  | nil => intro s a ha; cases ha
  | cons b rest ih =>
    intro s a ha
    by_cases harest : a ∈ rest
    · exact ih a harest
    · have hab : a = b := by
        rcases List.mem_cons.mp ha with h | h
        · exact h
        · exact absurd h harest
      subst hab
      unfold unlockAll
      rw [unlockAll_outside a harest]
      unfold rawUnlock
      simp

/-! ## Facts about the acquisition order -/

theorem acquireOrder_sorted (b : Builder) :
    b.acquireOrder.Sorted (· ≤ ·) :=
  List.sorted_insertionSort (· ≤ ·) b.locks

theorem acquireOrder_perm (b : Builder) :
    b.acquireOrder.Perm b.locks :=
  List.perm_insertionSort (· ≤ ·) b.locks

theorem acquireOrder_eq_of_perm {b b' : Builder}
    (h : b.locks.Perm b'.locks) : b.acquireOrder = b'.acquireOrder := by
  refine List.eq_of_perm_of_sorted ?_ (acquireOrder_sorted b) (acquireOrder_sorted b')
  exact ((acquireOrder_perm b).trans h).trans (acquireOrder_perm b').symm

theorem sorted_count_two_adjacent {a : Nat} :
    ∀ {l : List Nat}, l.Sorted (· ≤ ·) → 2 ≤ l.count a →
      ∃ l1 l2, l = l1 ++ a :: a :: l2 := by
  intro l
  induction l with
  | nil => intro _ hc; simp at hc
  | cons b rest ih =>
    intro hs hc
    rcases List.sorted_cons.mp hs with ⟨hble, hrest⟩
    by_cases hba : b = a
    · subst hba
      have hc1 : 1 ≤ rest.count b := by
        rw [List.count_cons_self] at hc
        omega
      have hmem : b ∈ rest := List.count_pos_iff.mp hc1
      cases rest with
      | nil => cases hmem
      | cons c rest2 =>
        have hcb : c = b := by
          have h1 : b ≤ c := hble c (List.mem_cons_self c rest2)
          have h2 : c ≤ b := by
            rcases List.mem_cons.mp hmem with h | h
            · exact h.symm.le
            · exact (List.sorted_cons.mp hrest).1 b h
          omega
        subst hcb
        exact ⟨[], rest2, rfl⟩
    · have hc2 : 2 ≤ rest.count a := by
        rw [List.count_cons_of_ne (fun hc3 => hba hc3.symm)] at hc
        exact hc
      obtain ⟨l1, l2, hsplit⟩ := ih hrest hc2
      exact ⟨b :: l1, l2, by rw [hsplit]; rfl⟩

theorem lockAllF_mono (poisoned : Nat → Bool) {l : List Nat} :
    ∀ {s : LockSt} (x : Nat), s x = true →
      (lockAllF poisoned s l).1 x = true := by
  induction l with
  | nil => intro s x hx; exact hx
  | cons a rest ih =>
    intro s x hx
    unfold lockAllF
    by_cases hp : poisoned a = true
    · rw [if_pos hp]; exact hx
    · rw [if_neg hp]
      refine ih x ?_
      by_cases hxa : x = a <;> simp [hxa, hx]

theorem lockAllF_split (poisoned : Nat → Bool) {a : Nat} (l2 : List Nat) :
    ∀ {l1 : List Nat} {s : LockSt},
      (∀ x ∈ l1, poisoned x = false) → poisoned a = true →
      (lockAllF poisoned s (l1 ++ a :: l2)).2 = some a ∧
      ∀ x ∈ l1, (lockAllF poisoned s (l1 ++ a :: l2)).1 x = true := by
  intro l1
  induction l1 with
  | nil =>
    intro s _ hfail
    constructor
    · show (lockAllF poisoned s (a :: l2)).2 = some a
      unfold lockAllF
      rw [if_pos hfail]
    · intro x hx; cases hx
  | cons c l1' ih =>
    intro s hok hfail
    have hc : poisoned c = false := hok c (List.mem_cons_self c l1')
    have hok' : ∀ x ∈ l1', poisoned x = false :=
      fun x hx => hok x (List.mem_cons_of_mem c hx)
    have hred0 : lockAllF poisoned s ((c :: l1') ++ a :: l2) =
        if poisoned c = true then (s, some c)
        else lockAllF poisoned (fun x => if x = c then true else s x)
          (l1' ++ a :: l2) := rfl
    have hred : lockAllF poisoned s ((c :: l1') ++ a :: l2) =
        lockAllF poisoned (fun x => if x = c then true else s x)
          (l1' ++ a :: l2) := by
      rw [hred0, if_neg (by rw [hc]; exact Bool.false_ne_true)]
    obtain ⟨ih1, ih2⟩ := ih (s := fun x => if x = c then true else s x) hok' hfail
    refine ⟨by rw [hred]; exact ih1, ?_⟩
    intro x hx
    rw [hred]
    rcases List.mem_cons.mp hx with hxc | hxl
    · subst hxc
      exact lockAllF_mono poisoned x (by simp)
    · exact ih2 x hxl

/-! ## Lemmas for the two-thread model -/

theorem acquireOrder_sorted_lt (b : Builder) (h : b.locks.Nodup) :
    b.acquireOrder.Sorted (· < ·) := by
  have hs : b.acquireOrder.Pairwise (· ≤ ·) := acquireOrder_sorted b
  have hn : b.acquireOrder.Pairwise (· ≠ ·) :=
    ((acquireOrder_perm b).nodup_iff).mpr h
  exact (hs.and hn).imp fun hab => lt_of_le_of_ne hab.1 hab.2

theorem threadInv_cross {t : Thread} (h : ThreadInv t) :
    ∀ x ∈ t.held, ∀ y ∈ t.todo, x < y :=
  fun x hx y hy => (List.pairwise_append.mp h.1).2.2 x hx y hy

theorem todo_head_not_held {t : Thread} (h : ThreadInv t) {a : Nat}
    {rest : List Nat} (ht : t.todo = a :: rest) : a ∉ t.held := by
  intro hmem
  have hlt := threadInv_cross h a hmem a
    (by rw [ht]; exact List.mem_cons_self a rest)
  exact lt_irrefl a hlt

theorem step_inv {s s' : Sys} (hi : Inv s) (hs : Step s s') : Inv s' := by
  obtain ⟨⟨hs1, hf1⟩, ⟨hs2, hf2⟩, hdisj⟩ := hi
  cases hs with
  | acq1 a rest h1 h2 h3 h4 =>
    refine ⟨⟨?_, ?_⟩, ⟨hs2, hf2⟩, ?_⟩
    · show ((s.t1.held ++ [a]) ++ rest).Sorted (· < ·)
      rw [List.append_assoc, List.singleton_append, ← h2]
      exact hs1
    · intro hcon; exact Bool.noConfusion hcon
    · intro x hx
      rcases List.mem_append.mp hx with hxm | hxm
      · exact hdisj x hxm
      · rw [List.mem_singleton] at hxm; subst hxm; exact h4
  | acq2 a rest h1 h2 h3 h4 =>
    refine ⟨⟨hs1, hf1⟩, ⟨?_, ?_⟩, ?_⟩
    · show ((s.t2.held ++ [a]) ++ rest).Sorted (· < ·)
      rw [List.append_assoc, List.singleton_append, ← h2]
      exact hs2
    · intro hcon; exact Bool.noConfusion hcon
    · intro x hx hmem
      rcases List.mem_append.mp hmem with hxm | hxm
      · exact hdisj x hx hxm
      · rw [List.mem_singleton] at hxm; subst hxm; exact h3 hx
  | rel1 h1 h2 =>
    refine ⟨⟨?_, fun _ => rfl⟩, ⟨hs2, hf2⟩, ?_⟩
    · exact List.sorted_nil
    · intro x hx; cases hx
  | rel2 h1 h2 =>
    refine ⟨⟨hs1, hf1⟩, ⟨?_, fun _ => rfl⟩, ?_⟩
    · exact List.sorted_nil
    · intro x _ hmem; cases hmem

theorem progress {s : Sys} (hi : Inv s) (hnd : ¬ BothDone s) :
    ∃ s', Step s s' := by
  obtain ⟨hi1, hi2, hdisj⟩ := hi
  cases hf1 : s.t1.finished with
  | false =>
    cases ht1 : s.t1.todo with
    | nil => exact ⟨_, Step.rel1 s hf1 ht1⟩
    | cons a rest =>
      have ha1 : a ∉ s.t1.held := todo_head_not_held hi1 ht1
      by_cases ha2 : a ∈ s.t2.held
      · have hf2 : s.t2.finished = false := by
          cases hf2c : s.t2.finished with
          | false => rfl
          | true => exact absurd (hi2.2 hf2c ▸ ha2) (List.not_mem_nil a)
        cases ht2 : s.t2.todo with
        | nil => exact ⟨_, Step.rel2 s hf2 ht2⟩
        | cons b rest2 =>
          have hb2 : b ∉ s.t2.held := todo_head_not_held hi2 ht2
          by_cases hb1 : b ∈ s.t1.held
          · have hba : b < a := threadInv_cross hi1 b hb1 a
              (by rw [ht1]; exact List.mem_cons_self a rest)
            have hab : a < b := threadInv_cross hi2 a ha2 b
              (by rw [ht2]; exact List.mem_cons_self b rest2)
            omega
          · exact ⟨_, Step.acq2 s b rest2 hf2 ht2 hb1 hb2⟩
      · exact ⟨_, Step.acq1 s a rest hf1 ht1 ha1 ha2⟩
  | true =>
    cases hf2 : s.t2.finished with
    | true => exact absurd ⟨hf1, hf2⟩ hnd
    | false =>
      cases ht2 : s.t2.todo with
      | nil => exact ⟨_, Step.rel2 s hf2 ht2⟩
      | cons b rest2 =>
        have hb2 : b ∉ s.t2.held := todo_head_not_held hi2 ht2
        have hb1 : b ∉ s.t1.held := by
          rw [hi1.2 hf1]; exact List.not_mem_nil b
        exact ⟨_, Step.acq2 s b rest2 hf2 ht2 hb1 hb2⟩

theorem step_meas {s s' : Sys} (h : Step s s') : meas s' < meas s := by
  cases h with
  | acq1 a rest h1 h2 h3 h4 =>
    cases hc : s.t2.finished <;> simp [meas, h1, h2, hc]
  | acq2 a rest h1 h2 h3 h4 =>
    cases hc : s.t1.finished <;> simp [meas, h1, h2, hc]
  | rel1 h1 h2 =>
    cases hc : s.t2.finished <;> simp [meas, h1, h2, hc]
  | rel2 h1 h2 =>
    cases hc : s.t1.finished <;> simp [meas, h1, h2, hc]

theorem reach_inv {s0 s : Sys} (h0 : Inv s0)
    (hr : Relation.ReflTransGen Step s0 s) : Inv s := by
  induction hr with
  | refl => exact h0
  | tail _ hbc ih => exact step_inv ih hbc

theorem completion_aux :
    ∀ (n : Nat) (s : Sys), meas s ≤ n → Inv s →
      ∃ s', Relation.ReflTransGen Step s s' ∧ BothDone s' := by
  intro n
  induction n with
  | zero =>
    intro s hm hi
    have hd : BothDone s := by
      cases hc1 : s.t1.finished with
      | false => rw [meas, hc1] at hm; simp at hm
      | true =>
        cases hc2 : s.t2.finished with
        | false => rw [meas, hc2] at hm; simp at hm
        | true => exact ⟨hc1, hc2⟩
    exact ⟨s, Relation.ReflTransGen.refl, hd⟩
  | succ n ih =>
    intro s hm hi
    by_cases hd : BothDone s
    · exact ⟨s, Relation.ReflTransGen.refl, hd⟩
    · obtain ⟨s1, hstep⟩ := progress hi hd
      have hlt := step_meas hstep
      obtain ⟨s2, hr, hdone⟩ := ih s1 (by omega) (step_inv hi hstep)
      exact ⟨s2, Relation.ReflTransGen.head hstep hr, hdone⟩

theorem no_infinite_chain (f : Nat → Sys)
    (hstep : ∀ n, Step (f n) (f (n + 1))) : False := by
  have key : ∀ n, meas (f n) + n ≤ meas (f 0) := by
    intro n
    induction n with
    | zero => omega
    | succ k ihk =>
      have := step_meas (hstep k)
      omega
  have := key (meas (f 0) + 1)
  omega

theorem initSys_inv (b1 b2 : Builder) (h1 : b1.locks.Nodup)
    (h2 : b2.locks.Nodup) : Inv (initSys b1 b2) := by
  refine ⟨⟨?_, ?_⟩, ⟨?_, ?_⟩, ?_⟩
  · show (([] : List Nat) ++ b1.acquireOrder).Sorted (· < ·)
    rw [List.nil_append]
    exact acquireOrder_sorted_lt b1 h1
  · intro hcon; exact Bool.noConfusion hcon
  · show (([] : List Nat) ++ b2.acquireOrder).Sorted (· < ·)
    rw [List.nil_append]
    exact acquireOrder_sorted_lt b2 h2
  · intro hcon; exact Bool.noConfusion hcon
  · intro x hx; cases hx

/-! ## Claim theorems -/

/-- C1: for every registration list, the sequence of underlying lock-acquire
calls issued by `Builder::finish` is sorted ascending by resource identity
(raw-mutex address), consists of exactly the registered resources, and for
any two builders whose registration lists are permutations of each other the
issued sequence is the same list — independent of registration order, with
ties between duplicate registrations deterministic (duplicates are equal
addresses, so the sorted sequence is unique). -/
theorem finish_acquire_calls_sorted (b b' : Builder)
    (hperm : b.locks.Perm b'.locks) :
    b.acquireOrder.Sorted (· ≤ ·) ∧
    b.acquireOrder.Perm b.locks ∧
    b.acquireOrder = b'.acquireOrder :=
  ⟨acquireOrder_sorted b, acquireOrder_perm b, acquireOrder_eq_of_perm hperm⟩

theorem finish_acquire_calls_sorted_witness :
    List.Perm [2, 1] [1, 2] ∧
    (Builder.mk 0 [2, 1]).acquireOrder.Sorted (· ≤ ·) ∧
    (Builder.mk 0 [2, 1]).acquireOrder.Perm [2, 1] ∧
    (Builder.mk 0 [2, 1]).acquireOrder = (Builder.mk 0 [1, 2]).acquireOrder := by
  have hp : List.Perm [2, 1] [1, 2] := List.Perm.swap 1 2 []
  exact ⟨hp, finish_acquire_calls_sorted (Builder.mk 0 [2, 1]) (Builder.mk 0 [1, 2]) hp⟩

theorem finish_eq_some {b : Builder} {s : LockSt}
    (h : (b.finish s).isSome = true) :
    lockAll s b.acquireOrder = some (b.finishSt s) ∧
    b.finishLk s = { brand := b.brand, locks := b.acquireOrder } := by
  unfold Builder.finish at h
  unfold Builder.finishSt Builder.finishLk Builder.finish
  cases hl : lockAll s b.acquireOrder with
  | none => rw [hl] at h; cases h
  | some s1 => exact ⟨rfl, rfl⟩

theorem finishLk_brand (b : Builder) (s : LockSt) :
    (b.finishLk s).brand = b.brand := by
  unfold Builder.finishLk Builder.finish
  cases lockAll s b.acquireOrder <;> rfl

theorem mem_locks_iff_mem_acquireOrder (b : Builder) (a : Nat) :
    a ∈ b.locks ↔ a ∈ b.acquireOrder :=
  ((acquireOrder_perm b).mem_iff).symm

/-- C5: for a session whose `finish` completes, every registered resource was
unlocked before `finish` (and `add` itself never changes the lock state),
every registered resource is locked in the state `finish` produces, and after
the `Locker` is dropped every registered resource is unlocked again, all
other mutexes keeping the lock state they had before the session. -/
theorem session_lock_states (b : Builder) (s : LockSt)
    (h : (b.finish s).isSome = true) :
    (∀ (b0 : Builder) (a : Nat) (x : LockSt), (b0.add a x).2.2 = x) ∧
    (∀ a ∈ b.locks, s a = false) ∧
    (∀ a ∈ b.locks, b.finishSt s a = true) ∧
    (∀ a ∈ b.locks, (b.finishLk s).drop (b.finishSt s) a = false) ∧
    (∀ x, x ∉ b.locks → (b.finishLk s).drop (b.finishSt s) x = s x) := by
  obtain ⟨hlock, hlk⟩ := finish_eq_some h
  refine ⟨fun _ _ _ => rfl, ?_, ?_, ?_, ?_⟩
  · intro a ha
    exact (lockAll_locks_mem hlock a ((mem_locks_iff_mem_acquireOrder b a).mp ha)).1
  · intro a ha
    exact (lockAll_locks_mem hlock a ((mem_locks_iff_mem_acquireOrder b a).mp ha)).2
  · intro a ha
    unfold Locker.drop
    rw [hlk]
    exact unlockAll_mem a ((mem_locks_iff_mem_acquireOrder b a).mp ha)
  · intro x hx
    have hx2 : x ∉ b.acquireOrder := fun hc =>
      hx ((mem_locks_iff_mem_acquireOrder b x).mpr hc)
    unfold Locker.drop
    rw [hlk]
    exact (unlockAll_outside x hx2).trans (lockAll_outside hlock x hx2)

theorem session_lock_states_witness :
    ((Builder.mk 7 [2, 1]).finish initSt).isSome = true ∧
    ((∀ (b0 : Builder) (a : Nat) (x : LockSt), (b0.add a x).2.2 = x) ∧
     (∀ a ∈ (Builder.mk 7 [2, 1]).locks, initSt a = false) ∧
     (∀ a ∈ (Builder.mk 7 [2, 1]).locks,
        (Builder.mk 7 [2, 1]).finishSt initSt a = true) ∧
     (∀ a ∈ (Builder.mk 7 [2, 1]).locks,
        ((Builder.mk 7 [2, 1]).finishLk initSt).drop
          ((Builder.mk 7 [2, 1]).finishSt initSt) a = false) ∧
     (∀ x, x ∉ (Builder.mk 7 [2, 1]).locks →
        ((Builder.mk 7 [2, 1]).finishLk initSt).drop
          ((Builder.mk 7 [2, 1]).finishSt initSt) x = initSt x)) :=
  ⟨by decide, session_lock_states (Builder.mk 7 [2, 1]) initSt (by decide)⟩

/-- C3: while the `Locker` of a completed `finish` exists, every resource it
lists is locked; the sequence of lock calls `finish` issued contains each
listed resource exactly once; and the sequence of unlock calls its
destruction issues contains each listed resource exactly once, leaving it
unlocked. -/
theorem locker_locks_each_once (b : Builder) (s : LockSt)
    (h : (b.finish s).isSome = true) :
    (∀ a ∈ (b.finishLk s).locks, b.finishSt s a = true) ∧
    (∀ a ∈ (b.finishLk s).locks, b.acquireOrder.count a = 1) ∧
    (∀ a ∈ (b.finishLk s).locks, (b.finishLk s).dropOrder.count a = 1) ∧
    (∀ a ∈ (b.finishLk s).locks, (b.finishLk s).drop (b.finishSt s) a = false) := by
  obtain ⟨hlock, hlk⟩ := finish_eq_some h
  have hnodup : b.acquireOrder.Nodup := lockAll_nodup hlock
  have hmem : ∀ a ∈ (b.finishLk s).locks, a ∈ b.acquireOrder := by
    intro a ha; rw [hlk] at ha; exact ha
  refine ⟨?_, ?_, ?_, ?_⟩
  · intro a ha
    exact (lockAll_locks_mem hlock a (hmem a ha)).2
  · intro a ha
    exact List.count_eq_one_of_mem hnodup (hmem a ha)
  · intro a ha
    unfold Locker.dropOrder
    rw [hlk]
    exact List.count_eq_one_of_mem hnodup (hmem a ha)
  · intro a ha
    unfold Locker.drop
    rw [hlk]
    exact unlockAll_mem a (hmem a ha)

theorem locker_locks_each_once_witness :
    ((Builder.mk 3 [5, 4]).finish initSt).isSome = true ∧
    ((∀ a ∈ ((Builder.mk 3 [5, 4]).finishLk initSt).locks,
        (Builder.mk 3 [5, 4]).finishSt initSt a = true) ∧
     (∀ a ∈ ((Builder.mk 3 [5, 4]).finishLk initSt).locks,
        (Builder.mk 3 [5, 4]).acquireOrder.count a = 1) ∧
     (∀ a ∈ ((Builder.mk 3 [5, 4]).finishLk initSt).locks,
        ((Builder.mk 3 [5, 4]).finishLk initSt).dropOrder.count a = 1) ∧
     (∀ a ∈ ((Builder.mk 3 [5, 4]).finishLk initSt).locks,
        ((Builder.mk 3 [5, 4]).finishLk initSt).drop
          ((Builder.mk 3 [5, 4]).finishSt initSt) a = false)) :=
  ⟨by decide, locker_locks_each_once (Builder.mk 3 [5, 4]) initSt (by decide)⟩

/-- C6: for a resource registered in a session, writing a value through its
token with the session's `Locker` updates exactly that resource's protected
value, and reading it back yields the written value.  `Locker.drop` acts on
`LockSt` only, never on the `Store`, so the value observed in the underlying
mutex after the session completes is exactly the one written. -/
theorem write_roundtrip (V : Type) (b : Builder) (s : LockSt) (t : Token)
    (v : V) (store : Store V)
    (_h : (b.finish s).isSome = true) (hbrand : t.brand = b.brand) :
    t.write (b.finishLk s) v store ≠ none ∧
    t.writeD (b.finishLk s) v store t.addr = v ∧
    (∀ x, x ≠ t.addr → t.writeD (b.finishLk s) v store x = store x) ∧
    t.get (b.finishLk s) (t.writeD (b.finishLk s) v store) = some v := by
  have hb : t.brand = (b.finishLk s).brand := by
    rw [finishLk_brand]; exact hbrand
  unfold Token.writeD Token.write Token.get
  rw [if_pos hb, if_pos hb]
  refine ⟨by simp, by simp, ?_, by simp⟩
  intro x hx
  simp [hx]

theorem write_roundtrip_witness :
    ((Builder.mk 2 [9]).finish initSt).isSome = true ∧
    (Token.mk 2 9).brand = (Builder.mk 2 [9]).brand ∧
    ((Token.mk 2 9).write ((Builder.mk 2 [9]).finishLk initSt) 42
        (fun _ => 0) ≠ none ∧
     (Token.mk 2 9).writeD ((Builder.mk 2 [9]).finishLk initSt) 42
        (fun _ => 0) (Token.mk 2 9).addr = 42 ∧
     (∀ x, x ≠ (Token.mk 2 9).addr →
        (Token.mk 2 9).writeD ((Builder.mk 2 [9]).finishLk initSt) 42
          (fun _ => 0) x = 0) ∧
     (Token.mk 2 9).get ((Builder.mk 2 [9]).finishLk initSt)
        ((Token.mk 2 9).writeD ((Builder.mk 2 [9]).finishLk initSt) 42
          (fun _ => 0)) = some 42) :=
  ⟨by decide, rfl,
   write_roundtrip Nat (Builder.mk 2 [9]) initSt (Token.mk 2 9) 42
     (fun _ => 0) (by decide) rfl⟩

/-- C10: when an accessor is used with the `Locker` of the same session,
after `finish` completed and before the `Locker` is dropped, the mutex the
token references is locked — the `debug_assert!(self.mutex.is_locked())` at
the top of `Token::get` / `Token::get_mut` holds — and the accessors succeed,
returning (resp. updating) the protected value; their types act on the store
alone, performing no locking or unlocking. -/
theorem accessor_assertion_holds (V : Type) (b : Builder) (s : LockSt)
    (t : Token) (v : V) (store : Store V)
    (h : (b.finish s).isSome = true) (haddr : t.addr ∈ b.locks)
    (hbrand : t.brand = b.brand) :
    t.assertLocked (b.finishSt s) = true ∧
    t.get (b.finishLk s) store = some (store t.addr) ∧
    t.write (b.finishLk s) v store =
      some (fun a => if a = t.addr then v else store a) := by
  obtain ⟨hlock, -⟩ := finish_eq_some h
  have hb : t.brand = (b.finishLk s).brand := by
    rw [finishLk_brand]; exact hbrand
  refine ⟨?_, ?_, ?_⟩
  · exact (lockAll_locks_mem hlock t.addr
      ((mem_locks_iff_mem_acquireOrder b t.addr).mp haddr)).2
  · unfold Token.get
    rw [if_pos hb]
  · unfold Token.write
    rw [if_pos hb]

theorem accessor_assertion_holds_witness :
    ((Builder.mk 2 [9, 4]).finish initSt).isSome = true ∧
    (Token.mk 2 9).addr ∈ (Builder.mk 2 [9, 4]).locks ∧
    (Token.mk 2 9).brand = (Builder.mk 2 [9, 4]).brand ∧
    ((Token.mk 2 9).assertLocked ((Builder.mk 2 [9, 4]).finishSt initSt) = true ∧
     (Token.mk 2 9).get ((Builder.mk 2 [9, 4]).finishLk initSt)
        (fun _ => 0) = some ((fun _ => (0 : Nat)) (Token.mk 2 9).addr) ∧
     (Token.mk 2 9).write ((Builder.mk 2 [9, 4]).finishLk initSt) 5
        (fun _ => 0) =
       some (fun a => if a = (Token.mk 2 9).addr then 5 else (fun _ => 0) a)) :=
  ⟨by decide, by decide, rfl,
   accessor_assertion_holds Nat (Builder.mk 2 [9, 4]) initSt (Token.mk 2 9) 5
     (fun _ => 0) (by decide) (by decide) rfl⟩

/-- C4: cross-session access is rejected.  The brand counter `multilock`
returns is the successor of the one it consumed, so every invocation after
the one branded `n` carries a brand at least `n + 1`; for a token branded by
one invocation and a locker branded by a later one the brands are never
equal, and both accessors — reifying the static `'id` typing rule — reject
the pair. -/
theorem cross_session_rejected (V α : Type) (n m : Nat) (f : Builder → α)
    (t : Token) (lk : Locker) (store : Store V) (v : V)
    (hT : t.brand = n) (hL : lk.brand = m) (hm : n + 1 ≤ m) :
    (multilock n f).2 = n + 1 ∧
    t.brand ≠ lk.brand ∧
    t.get lk store = none ∧
    t.write lk v store = none := by
  have hne : t.brand ≠ lk.brand := by rw [hT, hL]; omega
  unfold Token.get Token.write
  rw [if_neg hne, if_neg hne]
  exact ⟨rfl, hne, rfl, rfl⟩

theorem cross_session_rejected_witness :
    (Token.mk 0 5).brand = 0 ∧ (Locker.mk 1 []).brand = 1 ∧ 0 + 1 ≤ 1 ∧
    ((multilock 0 (fun b => b.brand)).2 = 0 + 1 ∧
     (Token.mk 0 5).brand ≠ (Locker.mk 1 []).brand ∧
     (Token.mk 0 5).get (Locker.mk 1 []) (fun _ => (0 : Nat)) = none ∧
     (Token.mk 0 5).write (Locker.mk 1 []) 3 (fun _ => (0 : Nat)) = none) :=
  ⟨rfl, rfl, by decide,
   cross_session_rejected Nat Nat 0 1 (fun b => b.brand) (Token.mk 0 5)
     (Locker.mk 1 []) (fun _ => 0) 3 rfl rfl (by decide)⟩

/-- C9: the entry point `multilock` constructs a `Builder` with an empty
resource collection carrying the fresh session brand, invokes the callback
exactly once with that builder, and returns the callback's result
unchanged (alongside the advanced brand counter). -/
theorem multilock_calls_once {α : Type} (n : Nat) (f : Builder → α) :
    multilock n f = (f (sessionBuilder n), n + 1) ∧
    (sessionBuilder n).locks = [] ∧
    (sessionBuilder n).brand = n :=
  ⟨rfl, rfl, rfl⟩

/-- C8: registering the same resource twice in one session is not
deduplicated: the sorted acquisition sequence `finish` issues contains the
two (equal) entries adjacently, so `finish` attempts two consecutive lock
calls on the same non-reentrant mutex and the session deadlocks against
itself — from every starting lock state, the acquisition loop never
returns. -/
theorem duplicate_registration_self_deadlock (b : Builder) (a : Nat)
    (hdup : 2 ≤ b.locks.count a) :
    (∃ l1 l2, b.acquireOrder = l1 ++ a :: a :: l2) ∧
    (∀ s : LockSt, b.finish s = none) := by
  have hcount : 2 ≤ b.acquireOrder.count a := by
    rw [(acquireOrder_perm b).count_eq]
    exact hdup
  refine ⟨sorted_count_two_adjacent (acquireOrder_sorted b) hcount, ?_⟩
  intro s
  have hnotnodup : ¬ b.acquireOrder.Nodup := by
    intro hnd
    have := List.nodup_iff_count_le_one.mp hnd a
    omega
  unfold Builder.finish
  cases hl : lockAll s b.acquireOrder with
  | none => rfl
  | some s1 => exact absurd (lockAll_nodup hl) hnotnodup

theorem duplicate_registration_self_deadlock_witness :
    2 ≤ (Builder.mk 0 [4, 4]).locks.count 4 ∧
    ((∃ l1 l2, (Builder.mk 0 [4, 4]).acquireOrder = l1 ++ 4 :: 4 :: l2) ∧
     (∀ s : LockSt, (Builder.mk 0 [4, 4]).finish s = none)) :=
  ⟨by decide, duplicate_registration_self_deadlock (Builder.mk 0 [4, 4]) 4 (by decide)⟩

/-- C7 counterexample: with resources 1 and 2 registered and the acquisition
of resource 2 failing, `finish` propagates the failure — but resource 1,
locked before the failure, is still locked when the failure propagates,
contradicting the claim that every resource already locked by that `finish`
call is released before the failure is re-raised. -/
theorem finish_failure_leaves_locks_held :
    ((Builder.mk 0 [1, 2]).finishF (fun a => a == 2) initSt).2 = some 2 ∧
    ((Builder.mk 0 [1, 2]).finishF (fun a => a == 2) initSt).1 1 = true := by
  constructor <;> rfl

/-- C7 amended: if an underlying lock acquisition fails during `finish`, the
failure is propagated unchanged without masking or retrying — the
acquisition loop stops at the first failing resource and reports exactly
that failure — but the resources already locked by that `finish` call are
not released: they all remain locked while the failure propagates. -/
theorem finish_failure_propagates (b : Builder) (poisoned : Nat → Bool)
    (s : LockSt) (l1 : List Nat) (a : Nat) (l2 : List Nat)
    (hsplit : b.acquireOrder = l1 ++ a :: l2)
    (hok : ∀ x ∈ l1, poisoned x = false) (hfail : poisoned a = true) :
    (b.finishF poisoned s).2 = some a ∧
    ∀ x ∈ l1, (b.finishF poisoned s).1 x = true := by
  unfold Builder.finishF
  rw [hsplit]
  exact lockAllF_split poisoned l2 hok hfail

theorem finish_failure_propagates_witness :
    (Builder.mk 0 [2, 1]).acquireOrder = [1] ++ 2 :: [] ∧
    (∀ x ∈ [1], (fun a => a == 2) x = false) ∧
    (fun a => a == 2) 2 = true ∧
    (((Builder.mk 0 [2, 1]).finishF (fun a => a == 2) initSt).2 = some 2 ∧
     ∀ x ∈ [1], ((Builder.mk 0 [2, 1]).finishF (fun a => a == 2) initSt).1 x = true) :=
  ⟨by decide, by decide, by decide,
   finish_failure_propagates (Builder.mk 0 [2, 1]) (fun a => a == 2) initSt
     [1] 2 [] (by decide) (by decide) (by decide)⟩

/-- C2: two threads each running a session over arbitrary (in particular
overlapping) resource sets, registered in any orders, never deadlock and
both eventually complete, under the closure assumption built into the model
that all locking of these resources goes through the mechanism: (i) from
every reachable state in which the two sessions have not both completed,
some thread can move — no deadlock; (ii) no infinite execution exists, so
every maximal execution is finite and, by (i), ends with both sessions
completed; (iii) a completing execution exists. -/
theorem two_sessions_deadlock_free (b1 b2 : Builder)
    (h1 : b1.locks.Nodup) (h2 : b2.locks.Nodup) :
    (∀ s, Relation.ReflTransGen Step (initSys b1 b2) s → ¬ BothDone s →
       ∃ s', Step s s') ∧
    (∀ f : Nat → Sys, f 0 = initSys b1 b2 →
       (∀ n, Step (f n) (f (n + 1))) → False) ∧
    (∃ s, Relation.ReflTransGen Step (initSys b1 b2) s ∧ BothDone s) := by
  have hinv := initSys_inv b1 b2 h1 h2
  refine ⟨?_, ?_, ?_⟩
  · intro s hr hnd
    exact progress (reach_inv hinv hr) hnd
  · intro f _ hs
    exact no_infinite_chain f hs
  · exact completion_aux (meas (initSys b1 b2)) (initSys b1 b2) le_rfl hinv

theorem two_sessions_deadlock_free_witness :
    (Builder.mk 0 [1, 2]).locks.Nodup ∧ (Builder.mk 1 [3, 2]).locks.Nodup ∧
    ((∀ s, Relation.ReflTransGen Step
        (initSys (Builder.mk 0 [1, 2]) (Builder.mk 1 [3, 2])) s →
        ¬ BothDone s → ∃ s', Step s s') ∧
     (∀ f : Nat → Sys,
        f 0 = initSys (Builder.mk 0 [1, 2]) (Builder.mk 1 [3, 2]) →
        (∀ n, Step (f n) (f (n + 1))) → False) ∧
     (∃ s, Relation.ReflTransGen Step
        (initSys (Builder.mk 0 [1, 2]) (Builder.mk 1 [3, 2])) s ∧
        BothDone s)) :=
  ⟨by decide, by decide,
   two_sessions_deadlock_free (Builder.mk 0 [1, 2]) (Builder.mk 1 [3, 2])
     (by decide) (by decide)⟩

end Multilock
